import Mathlib

/-!
# Verification of the Data Sweeper tabular pipeline (`src/growth.py`)

Shallow embedding of the dataframe pipeline: a `Table` is an ordered list of
column names together with a list of rows; cell values are rationals, strings,
or missing (pandas `NaN`).  Each pipeline stage of `growth.py` is embedded as
a pure function on `Table`, and the spec's claims are settled as theorems
about those functions.
-/

set_option autoImplicit false

/-- A cell value: numeric, textual, or missing (`NaN`). -/
inductive Val where
  | num (q : ℚ)
  | str (s : String)
  | missing
deriving DecidableEq

/-- The numeric content of a cell, if any. -/
def Val.toNum? : Val → Option ℚ
  | .num q => some q
  | _ => none

/-- Whether a cell holds text. -/
def Val.isStr : Val → Bool
  | .str _ => true
  | _ => false

/-- An in-memory table: ordered column names and a list of rows
(row-major; cell `j` of a row belongs to column `j`). -/
structure Table where
  header : List String
  rows : List (List Val)
deriving DecidableEq

/-- Well-formedness: each row has exactly one cell per column. -/
def Table.WF (t : Table) : Prop := ∀ r ∈ t.rows, r.length = t.header.length

instance (t : Table) : Decidable t.WF := by
  unfold Table.WF; infer_instance

/-- Column `j` of a table, as the list of its cells in row order. -/
def Table.getCol (t : Table) (j : ℕ) : List Val :=
  t.rows.map (fun r => r.getD j Val.missing)

/-- A column is numeric when no cell holds text: this is the embedding of a
pandas numeric dtype (`select_dtypes(include=['number'])`), where numeric
columns contain numbers and `NaN`s only. -/
def isNumericCol (col : List Val) : Bool := col.all (fun v => !v.isStr)

/-! ## Deduplication (`merged_df.drop_duplicates()`, growth.py line 55)

`drop_duplicates` keeps the first occurrence of each distinct row and removes
later exact duplicates.  Embedded as: keep the head, delete its later copies,
recurse. -/

/-- Embedding of `drop_duplicates` on the row list: keep each row's first
occurrence, remove the later copies. -/
def dropDuplicates : List (List Val) → List (List Val)
  | [] => []
  | r :: rs => r :: dropDuplicates (rs.filter (fun x => x ≠ r))
termination_by l => l.length
decreasing_by
  simp only [List.length_cons]
  exact Nat.lt_succ_of_le (List.length_filter_le _ _)

/-- The "Remove Duplicates" button: `merged_df.drop_duplicates(inplace=True)`. -/
def Table.dedup (t : Table) : Table := ⟨t.header, dropDuplicates t.rows⟩

/-- Spec-side rendering of §4.2 "Deduplicate" for claim C5: walk the rows with
the set of earlier rows (`seen`); a row equal to some earlier row is removed,
otherwise it is kept (first occurrence) and recorded. -/
def keepFirstAux (seen : List (List Val)) : List (List Val) → List (List Val)
  | [] => []
  | r :: rs =>
    if r ∈ seen then keepFirstAux seen rs
    else r :: keepFirstAux (r :: seen) rs

/-- Spec-side deduplication: remove exactly the rows equal to an earlier row. -/
def keepFirst (l : List (List Val)) : List (List Val) := keepFirstAux [] l

/-! ## Column-wise application

All cell-mutating stages of growth.py (`fillna`, the two scalers, the outlier
mask) act column by column.  `applyRow` applies one function per column to a
row; a table stage is then `applyCols` with a list of per-column functions. -/

/-- Apply the `j`-th function to the `j`-th cell of a row. -/
def applyRow : List (Val → Val) → List Val → List Val
  | _, [] => []
  | [], vs => vs
  | f :: fs, v :: vs => f v :: applyRow fs vs

/-- Apply a list of per-column cell functions to every row of a table. -/
def Table.applyCols (t : Table) (fs : List (Val → Val)) : Table :=
  ⟨t.header, t.rows.map (applyRow fs)⟩

/-! ## Column statistics -/

/-- Arithmetic mean of the non-missing (numeric) cells of a column, if any:
the embedding of pandas `Series.mean()` (which skips `NaN`). -/
def colMean? (col : List Val) : Option ℚ :=
  let nums := col.filterMap Val.toNum?
  if nums.isEmpty then none else some (nums.sum / nums.length)

/-- Least element of a list of rationals (`none` on the empty list):
the embedding of the NaN-skipping minimum the MinMax scaler fits on. -/
def listMin? : List ℚ → Option ℚ
  | [] => none
  | x :: xs => some (xs.foldl min x)

/-- Greatest element of a list of rationals (`none` on the empty list). -/
def listMax? : List ℚ → Option ℚ
  | [] => none
  | x :: xs => some (xs.foldl max x)

/-! ## Fill Missing Values (growth.py lines 58-61)

`merged_df[numeric_cols] = merged_df[numeric_cols].fillna(merged_df[numeric_cols].mean())`:
in every numeric column, missing cells are replaced by the column mean
(`mean()` skips missing cells; a column with no numeric cell has mean `NaN`
and `fillna(NaN)` changes nothing). -/

/-- Cell function of mean imputation for one column. -/
def fillFn (col : List Val) : Val → Val :=
  if isNumericCol col then
    match colMean? col with
    | some m => fun v => match v with | .missing => .num m | v' => v'
    | none => id
  else id

/-- The "Fill Missing Values" button. -/
def Table.fillMissing (t : Table) : Table :=
  t.applyCols ((List.range t.header.length).map (fun j => fillFn (t.getCol j)))

/-! ## Scaling (growth.py lines 68-75)

`MinMaxScaler` maps each numeric column by `x ↦ (x - min) / (max - min)`
(with the zero-range denominator replaced by 1, per
`sklearn _handle_zeros_in_scale`); `StandardScaler` maps by
`x ↦ (x - mean) / std` with population standard deviation (ddof = 0) and the
zero denominator likewise replaced by 1.  Missing cells pass through. -/

/-- Cell function of MinMax scaling for one column. -/
def minMaxFn (col : List Val) : Val → Val :=
  match listMin? (col.filterMap Val.toNum?), listMax? (col.filterMap Val.toNum?) with
  | some mn, some mx =>
    let d := if mx = mn then 1 else mx - mn
    fun v => match v with | .num x => .num ((x - mn) / d) | v' => v'
  | _, _ => id

/-- Population variance of a list of rationals about a given mean. -/
def popVar (nums : List ℚ) (m : ℚ) : ℚ :=
  (nums.map (fun x => (x - m) ^ 2)).sum / nums.length

/-- Rational stand-in for the real square root taken by the standardizer:
cell values are modeled in ℚ, where the exact real square root does not
exist; no claim below depends on the numeric value of a standardized cell,
only on which cells a scaler touches. -/
def sqrtQ (q : ℚ) : ℚ := Rat.sqrt q

/-- Cell function of ZScore standardization for one column. -/
def zScoreFn (col : List Val) : Val → Val :=
  match colMean? col with
  | some m =>
    let v := popVar (col.filterMap Val.toNum?) m
    let d := if v = 0 then 1 else sqrtQ v
    fun w => match w with | .num x => .num ((x - m) / d) | w' => w'
  | none => id

/-- The scaling-method selectbox of growth.py line 68. -/
inductive ScalingMethod where
  | noScaling
  | minMax
  | zScore
deriving DecidableEq

/-- Cell function of the chosen scaler for one column. -/
def scaleFn : ScalingMethod → List Val → Val → Val
  | .noScaling, _ => id
  | .minMax, col => minMaxFn col
  | .zScore, col => zScoreFn col

/-- The scaling stage: `scaler.fit_transform(merged_df[numeric_cols])`
assigned back to the numeric columns; non-numeric columns are not part of
`numeric_cols` and are untouched. -/
def Table.scale (t : Table) (m : ScalingMethod) : Table :=
  t.applyCols ((List.range t.header.length).map (fun j =>
    if isNumericCol (t.getCol j) then scaleFn m (t.getCol j) else id))

/-! ## Outlier Detection (growth.py lines 78-84)

`Q1 = df[nc].quantile(0.25)`, `Q3 = df[nc].quantile(0.75)` with pandas'
default linear-interpolation quantile, and then
`outliers = merged_df[(merged_df[nc] < Q1 - 1.5*IQR) | (merged_df[nc] > Q3 + 1.5*IQR)]`.
Indexing a frame with a boolean *frame* is `DataFrame.where`: the result has
the same shape as `merged_df`, keeping a cell where the mask is true and
holding `NaN` elsewhere; columns absent from the mask (the non-numeric ones)
count as all-false. -/

/-- Insert into a sorted list of rationals. -/
def insertSorted (x : ℚ) : List ℚ → List ℚ
  | [] => [x]
  | y :: ys => if x ≤ y then x :: y :: ys else y :: insertSorted x ys

/-- Insertion sort of a list of rationals. -/
def sortQ (l : List ℚ) : List ℚ := l.foldr insertSorted []

/-- Linear-interpolation quantile of a nonempty list of rationals
(pandas `Series.quantile` with the default `interpolation='linear'`):
at fraction `p`, index `h = (n-1)·p` into the sorted values, interpolating
between the neighbouring entries. -/
def quantileQ (nums : List ℚ) (p : ℚ) : ℚ :=
  let s := sortQ nums
  let h : ℚ := ((s.length - 1 : ℕ) : ℚ) * p
  let i : ℕ := (⌊h⌋).toNat
  let lo := s.getD i 0
  let hi := s.getD (i + 1) lo
  lo + (h - (i : ℚ)) * (hi - lo)

/-- Whether a cell value lies strictly outside the IQR fence
`[Q1 - 1.5·IQR, Q3 + 1.5·IQR]` of its column (false for missing or text
cells, and for a column with no numeric cell, where the quantiles are `NaN`
and every comparison with them is false). -/
def outsideFence (col : List Val) (v : Val) : Bool :=
  let nums := col.filterMap Val.toNum?
  if nums.isEmpty then false
  else
    let q1 := quantileQ nums (1 / 4)
    let q3 := quantileQ nums (3 / 4)
    let iqr := q3 - q1
    match v with
    | .num x => decide (x < q1 - 3 / 2 * iqr ∨ q3 + 3 / 2 * iqr < x)
    | _ => false

/-- Cell function of the outlier mask for one numeric column. -/
def outlierFn (col : List Val) (v : Val) : Val :=
  if outsideFence col v then v else Val.missing

/-- The "Detect Outliers" checkbox: the same-shape masked frame
`merged_df[(merged_df[nc] < lo) | (merged_df[nc] > hi)]`. -/
def Table.detectOutliers (t : Table) : Table :=
  t.applyCols ((List.range t.header.length).map (fun j =>
    if isNumericCol (t.getCol j) then outlierFn (t.getCol j) else fun _ => Val.missing))

/-- The outlier output as claim C1 states it: the sub-table of exactly those
rows having at least one numeric value strictly outside the fence of its
column, in the original row order. -/
def outliersAsClaimed (t : Table) : Table :=
  ⟨t.header,
    t.rows.filter (fun r =>
      (List.range t.header.length).any (fun j =>
        isNumericCol (t.getCol j) && outsideFence (t.getCol j) (r.getD j Val.missing)))⟩

/-! ## Ingestion: header normalization (growth.py lines 39-44)

`df.columns = df.columns.str.strip()`, then
`if all(df.columns.str.contains("Unnamed")): df.columns = df.iloc[0]; df = df[1:].reset_index(drop=True)`.
Rows are positional in this embedding, so `reset_index(drop=True)` is the
identity on the row list. -/

/-- Substring search on character lists (structural, so that concrete
instances evaluate inside the kernel). -/
def containsSeq (pat : List Char) : List Char → Bool
  | [] => pat.isEmpty
  | c :: cs => pat.isPrefixOf (c :: cs) || containsSeq pat cs

/-- Substring test embedding `Series.str.contains("Unnamed")` (a plain
substring regex search). -/
def hasUnnamed (s : String) : Bool := containsSeq "Unnamed".data s.data

/-- Whitespace-stripping of one name, embedding `str.strip()` (structural on
the character list, unlike `String.trim`, so concrete instances evaluate). -/
def strip (s : String) : String :=
  ⟨((s.data.dropWhile Char.isWhitespace).reverse.dropWhile Char.isWhitespace).reverse⟩

/-- Rendering of a promoted cell value as a column name
(`df.columns = df.iloc[0]` makes the row's values the column labels). -/
def valToName : Val → String
  | .num q => toString q
  | .str s => s
  | .missing => "nan"

/-- Whitespace-stripping of all column names, growth.py line 39. -/
def stripHeader (t : Table) : Table := ⟨t.header.map strip, t.rows⟩

/-- Header-less detection on an already-stripped header: when every column
name contains "Unnamed", promote row 0 to the header and drop it from the
body.  (pandas raises an `IndexError` on `df.iloc[0]` when there is no row;
the claims below only concern tables with a data row.) -/
def handleMissingHeaders (t : Table) : Table :=
  if t.header.all hasUnnamed then
    match t.rows with
    | r0 :: rest => ⟨r0.map valToName, rest⟩
    | [] => t
  else t

/-- Per-file normalization of growth.py lines 39-44: strip the header, then
header-less detection. -/
def ingestNormalize (t : Table) : Table := handleMissingHeaders (stripHeader t)

/-! ## Merge (growth.py lines 35-47) -/

/-- Embedding of `df.empty`: a frame with no rows or no columns. -/
def Table.isEmptyTable (t : Table) : Bool := t.rows.isEmpty || t.header.isEmpty

/-- Column-name union in order of first appearance: pandas `concat` outer
join keeps the first frame's columns and appends the new ones. -/
def headerUnion (h1 h2 : List String) : List String :=
  h1 ++ h2.filter (fun c => !(h1.contains c))

/-- Value of column `c` in a row belonging to a table with header `hdr`
(missing when the column is absent). -/
def lookupVal (hdr : List String) (r : List Val) (c : String) : Val :=
  r.getD (hdr.indexOf c) Val.missing

/-- Re-align a row from its own header to a new header, introducing missing
cells for columns the row does not have. -/
def reindexRow (hdr : List String) (r : List Val) (newHdr : List String) : List Val :=
  newHdr.map (lookupVal hdr r)

/-- Embedding of `pd.concat([t1, t2], ignore_index=True)`: rows of `t1` then
rows of `t2`, each re-aligned to the union of the two column sets. -/
def concatTables (t1 t2 : Table) : Table :=
  let h := headerUnion t1.header t2.header
  ⟨h, t1.rows.map (fun r => reindexRow t1.header r h) ++
      t2.rows.map (fun r => reindexRow t2.header r h)⟩

/-- The merge loop of growth.py lines 35-47: starting from an empty frame,
`merged_df = pd.concat([merged_df, df], ignore_index=True) if not merged_df.empty else df`
for each uploaded file in order. -/
def mergeTables (ts : List Table) : Table :=
  ts.foldl (fun acc df => if acc.isEmptyTable then df else concatTables acc df)
    ⟨[], []⟩

/-! ## Projection (growth.py lines 64-65) -/

/-- The spec's §7 error for a projection naming an absent column (pandas
raises a `KeyError` from `merged_df[selected_columns]`). -/
inductive SelectError where
  | unknownColumn (c : String)
deriving DecidableEq

/-- Column projection `merged_df[selected_columns]`: the sub-table of the
requested columns in the requested order, failing when a requested name is
absent from the header. -/
def selectColumns (t : Table) (cols : List String) : Except SelectError Table :=
  match cols.find? (fun c => !(t.header.contains c)) with
  | some c => .error (.unknownColumn c)
  | none => .ok ⟨cols, t.rows.map (fun r => cols.map (lookupVal t.header r))⟩

/-! ## Export (growth.py lines 105-130) -/

/-- The format radio button of growth.py line 105. -/
inductive ConversionType where
  | csv
  | excel
  | json
  | parquet
deriving DecidableEq

/-- Where the exported bytes live: the in-memory `BytesIO` buffer, or a
named file on disk. -/
inductive BufferKind where
  | inMemory
  | tempFile (path : String)
deriving DecidableEq

/-- The byte content handed to the download button: one of the external
codecs (spec §1 treats them as external collaborators) applied to the
table. -/
inductive Encoded where
  | csvBytes (t : Table)
  | excelBytes (t : Table)
  | jsonLines (t : Table)
  | parquetBytes (t : Table)
deriving DecidableEq

/-- What the download button receives: a default file name, a MIME type,
the buffer placement, and the encoded payload. -/
structure ExportResult where
  fileName : String
  mime : String
  kind : BufferKind
  payload : Encoded
deriving DecidableEq

/-- The "Convert & Download" button (growth.py lines 105-130): CSV, Excel
and JSON are encoded into the in-memory buffer under
`"processed_data" + extension`; the Parquet branch writes the file
`data.parquet` to disk and offers that file's bytes. -/
def convertFile (t : Table) : ConversionType → ExportResult
  | .csv => ⟨"processed_data" ++ ".csv", "text/csv", .inMemory, .csvBytes t⟩
  | .excel => ⟨"processed_data" ++ ".xlsx",
      "application/vnd.openxmlformats-officedocument.spreadsheetml.sheet",
      .inMemory, .excelBytes t⟩
  | .json => ⟨"processed_data" ++ ".json", "application/json", .inMemory,
      .jsonLines t⟩
  | .parquet => ⟨"data.parquet", "application/octet-stream",
      .tempFile "data.parquet", .parquetBytes t⟩

/-- Extension column of the spec's §6 interface table. -/
def specExtension : ConversionType → String
  | .csv => ".csv"
  | .excel => ".xlsx"
  | .json => ".json"
  | .parquet => ".parquet"

/-- MIME column of the spec's §6 interface table. -/
def specMime : ConversionType → String
  | .csv => "text/csv"
  | .excel => "application/vnd.openxmlformats-officedocument.spreadsheetml.sheet"
  | .json => "application/json"
  | .parquet => "application/octet-stream"

/-! ## Concrete tables used in the closed instances below -/

/-- The spec §8 outlier scenario, the single-column table {a:[1,2,3,4,100]}. -/
def outlierSample : Table :=
  ⟨["a"], [[Val.num 1], [Val.num 2], [Val.num 3], [Val.num 4], [Val.num 100]]⟩

/-- A numeric column holding a missing cell next to a text column. -/
def fillSample : Table :=
  ⟨["a", "b"], [[Val.num 1, Val.str "x"], [Val.missing, Val.str "y"]]⟩

/-- A one-column numeric table with minimum 0 and maximum 2. -/
def scaleSample : Table := ⟨["a"], [[Val.num 0], [Val.num 2]]⟩

/-- A one-column numeric table whose minimum equals its maximum. -/
def constSample : Table := ⟨["a"], [[Val.num 5], [Val.num 5]]⟩

/-- A table whose trimmed column names all contain "Unnamed". -/
def unnamedSample : Table :=
  ⟨["Unnamed: 0", " Unnamed: 1"],
   [[Val.str "A", Val.str "B"], [Val.num 1, Val.num 2]]⟩

/-- A table with an ordinary (not all-"Unnamed") header. -/
def namedSample : Table := ⟨["a ", "b"], [[Val.num 1, Val.num 2]]⟩

/-- First of two three-row tables sharing the schema ["a", "b"]. -/
def mergeSample1 : Table :=
  ⟨["a", "b"],
   [[Val.num 1, Val.num 2], [Val.num 3, Val.num 4], [Val.num 5, Val.num 6]]⟩

/-- Second of two three-row tables sharing the schema ["a", "b"]. -/
def mergeSample2 : Table :=
  ⟨["a", "b"],
   [[Val.num 7, Val.num 8], [Val.num 9, Val.num 10], [Val.num 11, Val.num 12]]⟩


/-! ## Supporting lemmas -/

theorem dropDuplicates_filter (p : List Val → Bool) (l : List (List Val)) :
    (dropDuplicates l).filter p = dropDuplicates (l.filter p) := by
  induction l using dropDuplicates.induct with
  | case1 => simp [dropDuplicates]
  | case2 r rs ih =>
    by_cases hp : p r = true
    · rw [dropDuplicates, List.filter_cons_of_pos hp, ih,
        List.filter_cons_of_pos hp, dropDuplicates]
      congr 1
      rw [List.filter_filter, List.filter_filter]
      congr 1
      apply List.filter_congr
      intro x _
      rw [Bool.and_comm]
    · rw [dropDuplicates, List.filter_cons_of_neg hp, ih,
        List.filter_cons_of_neg hp, List.filter_filter]
      congr 1
      apply List.filter_congr
      intro x _
      by_cases hxr : x = r
      · subst hxr
        have hf : p x = false := Bool.eq_false_iff.mpr hp
        simp [hf]
      · simp [hxr]

theorem keepFirstAux_eq (seen : List (List Val)) (l : List (List Val)) :
    keepFirstAux seen l = dropDuplicates (l.filter (fun x => x ∉ seen)) := by
  induction l generalizing seen with
  | nil => simp [keepFirstAux, dropDuplicates]
  | cons r rs ih =>
    by_cases hr : r ∈ seen
    · rw [keepFirstAux, if_pos hr, List.filter_cons_of_neg (by simpa using hr), ih]
    · rw [keepFirstAux, if_neg hr, ih, List.filter_cons_of_pos (by simpa using hr),
        dropDuplicates, List.filter_filter]
      congr 2
      apply List.filter_congr
      intro x _
      by_cases h1 : x = r
      · subst h1
        simp
      · by_cases h2 : x ∈ seen
        · simp [h1, h2]
        · simp [h1, h2]

theorem dropDuplicates_eq_keepFirst (l : List (List Val)) :
    dropDuplicates l = keepFirst l := by
  rw [keepFirst, keepFirstAux_eq]
  have h : l.filter (fun x => decide (x ∉ ([] : List (List Val)))) = l := by simp
  rw [h]

theorem applyRow_length (fs : List (Val → Val)) (r : List Val) :
    (applyRow fs r).length = r.length := by
  induction fs generalizing r with
  | nil => cases r <;> rfl
  | cons f fs ih =>
    cases r with
    | nil => rfl
    | cons v vs => simpa [applyRow] using ih vs

theorem applyRow_getD (fs : List (Val → Val)) (r : List Val) (j : ℕ)
    (hjr : j < r.length) (hjf : j < fs.length) :
    (applyRow fs r).getD j Val.missing = (fs.getD j id) (r.getD j Val.missing) := by
  induction fs generalizing r j with
  | nil => exact absurd hjf (by simp)
  | cons f fs ih =>
    cases r with
    | nil => exact absurd hjr (by simp)
    | cons v vs =>
      cases j with
      | zero => simp [applyRow]
      | succ j =>
        rw [applyRow, List.getD_cons_succ, List.getD_cons_succ, List.getD_cons_succ]
        exact ih vs j (by simpa using hjr) (by simpa using hjf)

theorem getD_range_map {α : Type} (g : ℕ → α) (n j : ℕ) (hj : j < n) (d : α) :
    ((List.range n).map g).getD j d = g j := by
  rw [List.getD_eq_getElem?_getD, List.getElem?_map, List.getElem?_range hj]
  rfl

theorem map_getD {α β : Type} (f : α → β) (l : List α) (j : ℕ) (hj : j < l.length)
    (d : β) (d' : α) : (l.map f).getD j d = f (l.getD j d') := by
  rw [List.getD_eq_getElem?_getD, List.getElem?_map, List.getElem?_eq_getElem hj,
    List.getD_eq_getElem?_getD, List.getElem?_eq_getElem hj]
  rfl

theorem getCol_applyCols (t : Table) (fs : List (Val → Val)) (j : ℕ)
    (hwf : t.WF) (hj : j < t.header.length) (hlen : fs.length = t.header.length) :
    (t.applyCols fs).getCol j = (t.getCol j).map (fs.getD j id) := by
  unfold Table.applyCols Table.getCol
  rw [List.map_map, List.map_map]
  apply List.map_congr_left
  intro r hr
  exact applyRow_getD fs r j (by rw [hwf r hr]; exact hj) (by rw [hlen]; exact hj)

theorem foldl_min_le (xs : List ℚ) (a : ℚ) : xs.foldl min a ≤ a := by
  induction xs generalizing a with
  | nil => exact le_refl a
  | cons x xs ih => exact le_trans (ih (min a x)) (min_le_left a x)

theorem foldl_min_le_mem (xs : List ℚ) (a x : ℚ) (hx : x ∈ xs) :
    xs.foldl min a ≤ x := by
  induction xs generalizing a with
  | nil => cases hx
  | cons y ys ih =>
    rcases List.mem_cons.mp hx with h | h
    · subst h
      exact le_trans (foldl_min_le ys (min a x)) (min_le_right a x)
    · exact ih (min a y) h

theorem le_foldl_max (xs : List ℚ) (a : ℚ) : a ≤ xs.foldl max a := by
  induction xs generalizing a with
  | nil => exact le_refl a
  | cons x xs ih => exact le_trans (le_max_left a x) (ih (max a x))

theorem mem_le_foldl_max (xs : List ℚ) (a x : ℚ) (hx : x ∈ xs) :
    x ≤ xs.foldl max a := by
  induction xs generalizing a with
  | nil => cases hx
  | cons y ys ih =>
    rcases List.mem_cons.mp hx with h | h
    · subst h
      exact le_trans (le_max_right a x) (le_foldl_max ys (max a x))
    · exact ih (max a y) h

theorem listMin?_le (l : List ℚ) (mn x : ℚ) (hmn : listMin? l = some mn)
    (hx : x ∈ l) : mn ≤ x := by
  cases l with
  | nil => cases hx
  | cons y ys =>
    rw [listMin?] at hmn
    injection hmn with hmn
    subst hmn
    rcases List.mem_cons.mp hx with h | h
    · subst h; exact foldl_min_le ys x
    · exact foldl_min_le_mem ys y x h

theorem le_listMax? (l : List ℚ) (mx x : ℚ) (hmx : listMax? l = some mx)
    (hx : x ∈ l) : x ≤ mx := by
  cases l with
  | nil => cases hx
  | cons y ys =>
    rw [listMax?] at hmx
    injection hmx with hmx
    subst hmx
    rcases List.mem_cons.mp hx with h | h
    · subst h; exact le_foldl_max ys x
    · exact mem_le_foldl_max ys y x h

theorem dropDuplicates_cons (r : List Val) (rs : List (List Val)) :
    dropDuplicates (r :: rs) = r :: dropDuplicates (rs.filter (fun x => x ≠ r)) := by
  rw [dropDuplicates]

theorem dropDuplicates_idem (l : List (List Val)) :
    dropDuplicates (dropDuplicates l) = dropDuplicates l := by
  induction l using dropDuplicates.induct with
  | case1 => simp [dropDuplicates]
  | case2 r rs ih =>
    rw [dropDuplicates_cons]
    rw [dropDuplicates_cons]
    congr 1
    rw [dropDuplicates_filter]
    have hxx : (rs.filter (fun x => x ≠ r)).filter (fun x => x ≠ r)
        = rs.filter (fun x => x ≠ r) := by
      rw [List.filter_filter]
      apply List.filter_congr
      intro x _
      exact Bool.and_self _
    rw [hxx, ih]

/-! ## Claims -/

/-- C4: deduplication is idempotent: for every table, applying the
deduplicate operation twice yields the same table as applying it once. -/
theorem dedup_idempotent (t : Table) : t.dedup.dedup = t.dedup := by
  show (⟨t.header, dropDuplicates (dropDuplicates t.rows)⟩ : Table)
      = ⟨t.header, dropDuplicates t.rows⟩
  rw [dropDuplicates_idem]

/-- C5: deduplication removes exactly the rows equal, on all columns, to some
earlier row — the `keepFirst` walk that drops a row iff it equals one of the
earlier rows, keeps first occurrences, and preserves the order of kept rows —
and in particular the single-column table {a:[1,2,2,3]} becomes {a:[1,2,3]}. -/
theorem dedup_removes_earlier_duplicates :
    (∀ t : Table, t.dedup = ⟨t.header, keepFirst t.rows⟩) ∧
    Table.dedup ⟨["a"], [[Val.num 1], [Val.num 2], [Val.num 2], [Val.num 3]]⟩
      = ⟨["a"], [[Val.num 1], [Val.num 2], [Val.num 3]]⟩ := by
  constructor
  · intro t
    show (⟨t.header, dropDuplicates t.rows⟩ : Table) = _
    rw [dropDuplicates_eq_keepFirst]
  · show (⟨["a"], dropDuplicates _⟩ : Table) = _
    simp +decide [dropDuplicates]

/-- C10: for every table and chosen export format, the export returns a
buffer whose file name carries the §6 extension, the §6 MIME type, an
in-memory buffer exactly for the CSV/Excel/JSON formats, and for the
columnar-binary format the bytes of the named on-disk file data.parquet. -/
theorem convertFile_spec (t : Table) (c : ConversionType) :
    (∃ p : String, (convertFile t c).fileName = p ++ specExtension c) ∧
    (convertFile t c).mime = specMime c ∧
    ((convertFile t c).kind = BufferKind.inMemory ↔ c ≠ ConversionType.parquet) ∧
    (convertFile t ConversionType.parquet).kind = BufferKind.tempFile "data.parquet" ∧
    (convertFile t ConversionType.parquet).payload = Encoded.parquetBytes t := by
  cases c with
  | csv =>
    refine ⟨⟨"processed_data", rfl⟩, rfl, ?_, rfl, rfl⟩
    exact ⟨fun _ h => ConversionType.noConfusion h, fun _ => rfl⟩
  | excel =>
    refine ⟨⟨"processed_data", rfl⟩, rfl, ?_, rfl, rfl⟩
    exact ⟨fun _ h => ConversionType.noConfusion h, fun _ => rfl⟩
  | json =>
    refine ⟨⟨"processed_data", rfl⟩, rfl, ?_, rfl, rfl⟩
    exact ⟨fun _ h => ConversionType.noConfusion h, fun _ => rfl⟩
  | parquet =>
    refine ⟨⟨"data", ?_⟩, rfl, ?_, rfl, rfl⟩
    · show ("data.parquet" : String) = "data" ++ ".parquet"
      decide
    · exact ⟨fun h => BufferKind.noConfusion h, fun h => absurd rfl h⟩

/-- C9: scaling (with any of the offered methods) leaves every non-numeric
column unchanged and preserves the header, the row count and the positional
row order: every column of the result agrees position-by-position with the
corresponding source column — unchanged when the column is non-numeric, its
column-wise scaler image when it is numeric — so row `i` of the result is
exactly the column-wise image of row `i`. -/
theorem scale_frame_spec (m : ScalingMethod) (t : Table) (hwf : t.WF) :
    (t.scale m).header = t.header ∧
    (t.scale m).rows.length = t.rows.length ∧
    (∀ j, j < t.header.length → isNumericCol (t.getCol j) = false →
      (t.scale m).getCol j = t.getCol j) ∧
    (∀ j, j < t.header.length → isNumericCol (t.getCol j) = true →
      (t.scale m).getCol j = (t.getCol j).map (scaleFn m (t.getCol j))) := by
  refine ⟨rfl, by simp [Table.scale, Table.applyCols], ?_, ?_⟩
  · intro j hj hnn
    rw [Table.scale, getCol_applyCols t _ j hwf hj (by simp)]
    rw [getD_range_map _ _ j hj, hnn]
    simp
  · intro j hj hnum
    rw [Table.scale, getCol_applyCols t _ j hwf hj (by simp)]
    rw [getD_range_map _ _ j hj, hnum]
    simp

/-- Closed instance of C9: a table with a numeric column and a text column,
scaled with MinMax. -/
theorem scale_frame_spec_witness :
    fillSample.WF ∧
    ((fillSample.scale ScalingMethod.minMax).header = fillSample.header ∧
     (fillSample.scale ScalingMethod.minMax).rows.length = fillSample.rows.length ∧
     (∀ j, j < fillSample.header.length →
       isNumericCol (fillSample.getCol j) = false →
       (fillSample.scale ScalingMethod.minMax).getCol j = fillSample.getCol j) ∧
     (∀ j, j < fillSample.header.length →
       isNumericCol (fillSample.getCol j) = true →
       (fillSample.scale ScalingMethod.minMax).getCol j
         = (fillSample.getCol j).map
             (scaleFn ScalingMethod.minMax (fillSample.getCol j)))) :=
  ⟨by decide, scale_frame_spec ScalingMethod.minMax fillSample (by decide)⟩

/-- C6: during ingestion of one file, exactly when every whitespace-trimmed
column name contains the "Unnamed" placeholder, row 0 is promoted to the
column names and removed from the body (re-indexing is positional here);
otherwise the data body is left unchanged by header-less detection. -/
theorem ingest_headers_spec (t : Table) (hr : t.rows ≠ []) :
    (t.header.all (fun c => hasUnnamed (strip c)) = true →
      ingestNormalize t = ⟨(t.rows.headD []).map valToName, t.rows.tail⟩) ∧
    (t.header.all (fun c => hasUnnamed (strip c)) = false →
      ingestNormalize t = ⟨t.header.map strip, t.rows⟩) := by
  obtain ⟨hdr, rows⟩ := t
  cases rows with
  | nil => exact absurd rfl hr
  | cons r0 rest =>
    constructor
    · intro h
      have hc : (hdr.map strip).all hasUnnamed = true := by
        rw [List.all_map]
        exact h
      show handleMissingHeaders ⟨hdr.map strip, r0 :: rest⟩ = _
      unfold handleMissingHeaders
      rw [if_pos hc]
      rfl
    · intro h
      have hc : ¬((hdr.map strip).all hasUnnamed = true) := by
        rw [List.all_map]
        show ¬(hdr.all (fun c => hasUnnamed (strip c)) = true)
        rw [h]
        exact Bool.false_ne_true
      show handleMissingHeaders ⟨hdr.map strip, r0 :: rest⟩ = _
      unfold handleMissingHeaders
      rw [if_neg hc]

/-- Closed instance of C6: both branches of header-less detection, on a table
whose trimmed names all contain "Unnamed" and on one with ordinary names. -/
theorem ingest_headers_spec_witness :
    (unnamedSample.rows ≠ [] ∧
      ingestNormalize unnamedSample
        = ⟨(unnamedSample.rows.headD []).map valToName, unnamedSample.rows.tail⟩) ∧
    (namedSample.rows ≠ [] ∧
      ingestNormalize namedSample
        = ⟨namedSample.header.map strip, namedSample.rows⟩) :=
  ⟨⟨by decide, (ingest_headers_spec unnamedSample (by decide)).1 (by decide)⟩,
   ⟨by decide, (ingest_headers_spec namedSample (by decide)).2 (by decide)⟩⟩

/-- C8: projection with a list of requested names returns the table
restricted to exactly those columns in the requested order — same row count
and row order, column `k` of the result being the source column named by the
`k`-th request — when every requested name is present, and fails with
UnknownColumn when some requested name is absent. -/
theorem selectColumns_spec (t : Table) (cols : List String) :
    ((∀ c ∈ cols, c ∈ t.header) →
      ∃ u, selectColumns t cols = Except.ok u ∧
        u.header = cols ∧
        u.rows.length = t.rows.length ∧
        ∀ k, k < cols.length →
          u.getCol k = t.getCol (t.header.indexOf (cols.getD k ""))) ∧
    ((∃ c ∈ cols, c ∉ t.header) →
      ∃ c, selectColumns t cols = Except.error (SelectError.unknownColumn c) ∧
        c ∈ cols ∧ c ∉ t.header) := by
  constructor
  · intro hall
    have hfind : cols.find? (fun c => !(t.header.contains c)) = none := by
      rw [List.find?_eq_none]
      intro c hc
      have hmem : t.header.contains c = true := List.elem_iff.mpr (hall c hc)
      simp [hmem]
      exact hall c hc
    refine ⟨⟨cols, t.rows.map (fun r => cols.map (lookupVal t.header r))⟩, ?_, rfl,
      by simp, ?_⟩
    · unfold selectColumns
      rw [hfind]
    · intro k hk
      show (t.rows.map (fun r => cols.map (lookupVal t.header r))).map
          (fun r => r.getD k Val.missing) = _
      rw [List.map_map]
      apply List.map_congr_left
      intro r hr
      show (cols.map (lookupVal t.header r)).getD k Val.missing
          = r.getD (t.header.indexOf (cols.getD k "")) Val.missing
      rw [map_getD _ _ k hk Val.missing ""]
      rfl
  · intro ⟨c, hc, hnc⟩
    have hsome : (cols.find? (fun c => !(t.header.contains c))).isSome := by
      rw [List.find?_isSome]
      refine ⟨c, hc, ?_⟩
      have hcc : t.header.contains c = false := by
        cases hcase : t.header.contains c
        · rfl
        · exact absurd (List.elem_iff.mp hcase) hnc
      simp [hcc]
      exact hnc
    obtain ⟨c', hc'⟩ := Option.isSome_iff_exists.mp hsome
    refine ⟨c', ?_, List.mem_of_find?_eq_some hc', ?_⟩
    · unfold selectColumns
      rw [hc']
    · have hp := List.find?_some hc'
      simp only [Bool.not_eq_true'] at hp
      intro hmem
      have hmt : t.header.contains c' = true := List.elem_iff.mpr hmem
      rw [hp] at hmt
      exact Bool.false_ne_true hmt

/-- Closed instance of C8: both projection branches on a two-column table,
requesting the present column "b" and then the absent column "zz". -/
theorem selectColumns_spec_witness :
    (∃ u, selectColumns namedSample ["b"] = Except.ok u ∧
      u.header = ["b"] ∧
      u.rows.length = namedSample.rows.length ∧
      ∀ k, k < (["b"] : List String).length →
        u.getCol k
          = namedSample.getCol
              (namedSample.header.indexOf ((["b"] : List String).getD k ""))) ∧
    (∃ c, selectColumns namedSample ["zz"]
        = Except.error (SelectError.unknownColumn c) ∧
      c ∈ (["zz"] : List String) ∧ c ∉ namedSample.header) :=
  ⟨(selectColumns_spec namedSample ["b"]).1 (by decide),
   (selectColumns_spec namedSample ["zz"]).2 ⟨"zz", by decide, by decide⟩⟩

theorem getCol_fillMissing (t : Table) (hwf : t.WF) (j : ℕ)
    (hj : j < t.header.length) :
    t.fillMissing.getCol j = (t.getCol j).map (fillFn (t.getCol j)) := by
  rw [Table.fillMissing, getCol_applyCols t _ j hwf hj (by simp),
    getD_range_map _ _ j hj]

/-- C2: after mean-imputation, in every numeric column holding at least one
non-missing value, every formerly missing entry now holds the arithmetic
mean of the column's non-missing values, the other entries are unchanged and
no missing entries remain; every non-numeric column is unchanged. -/
theorem fillMissing_spec (t : Table) (hwf : t.WF) (j : ℕ)
    (hj : j < t.header.length) :
    (isNumericCol (t.getCol j) = true →
      (∃ v ∈ t.getCol j, v ≠ Val.missing) →
      t.fillMissing.getCol j =
        (t.getCol j).map (fun v =>
          if v = Val.missing then
            Val.num (((t.getCol j).filterMap Val.toNum?).sum /
              (((t.getCol j).filterMap Val.toNum?).length : ℚ))
          else v) ∧
      ∀ v ∈ t.fillMissing.getCol j, v ≠ Val.missing) ∧
    (isNumericCol (t.getCol j) = false →
      t.fillMissing.getCol j = t.getCol j) := by
  constructor
  · intro hnum hex
    have hne : ((t.getCol j).filterMap Val.toNum?).isEmpty = false := by
      obtain ⟨v, hv, hvm⟩ := hex
      have hvn : ¬ v.isStr = true := by
        have := List.all_eq_true.mp hnum v hv
        simpa using this
      cases v with
      | num q =>
        have hq : q ∈ (t.getCol j).filterMap Val.toNum? :=
          List.mem_filterMap.mpr ⟨Val.num q, hv, rfl⟩
        cases hcase : ((t.getCol j).filterMap Val.toNum?).isEmpty
        · rfl
        · rw [List.isEmpty_iff] at hcase
          rw [hcase] at hq
          cases hq
      | str s => exact absurd rfl hvn
      | missing => exact absurd rfl hvm
    have hmean : colMean? (t.getCol j)
        = some (((t.getCol j).filterMap Val.toNum?).sum /
            (((t.getCol j).filterMap Val.toNum?).length : ℚ)) := by
      rw [colMean?]
      simp only [hne]
      rfl
    have hfn : fillFn (t.getCol j) = fun v =>
        if v = Val.missing then
          Val.num (((t.getCol j).filterMap Val.toNum?).sum /
            (((t.getCol j).filterMap Val.toNum?).length : ℚ))
        else v := by
      rw [fillFn, if_pos hnum, hmean]
      funext v
      cases v <;> rfl
    constructor
    · rw [getCol_fillMissing t hwf j hj, hfn]
    · intro v hv
      rw [getCol_fillMissing t hwf j hj, hfn] at hv
      obtain ⟨w, _, hw⟩ := List.mem_map.mp hv
      subst hw
      cases w with
      | num q => simp
      | str s => simp
      | missing => simp
  · intro hnn
    rw [getCol_fillMissing t hwf j hj, fillFn, if_neg (by rw [hnn]; exact Bool.false_ne_true)]
    simp

/-- Closed instance of C2: a numeric column [1, missing] is imputed to
[1, 1] and the neighbouring text column is unchanged. -/
theorem fillMissing_spec_witness :
    (fillSample.WF ∧ 0 < fillSample.header.length ∧ 1 < fillSample.header.length) ∧
    (fillSample.fillMissing.getCol 0
        = (fillSample.getCol 0).map (fun v =>
            if v = Val.missing then
              Val.num (((fillSample.getCol 0).filterMap Val.toNum?).sum /
                (((fillSample.getCol 0).filterMap Val.toNum?).length : ℚ))
            else v) ∧
      ∀ v ∈ fillSample.fillMissing.getCol 0, v ≠ Val.missing) ∧
    fillSample.fillMissing.getCol 1 = fillSample.getCol 1 :=
  ⟨⟨by decide, by decide, by decide⟩,
   (fillMissing_spec fillSample (by decide) 0 (by decide)).1 (by decide)
     ⟨Val.num 1, by decide, by decide⟩,
   (fillMissing_spec fillSample (by decide) 1 (by decide)).2 (by decide)⟩

theorem getCol_scale_numeric (m : ScalingMethod) (t : Table) (hwf : t.WF)
    (j : ℕ) (hj : j < t.header.length) (hnum : isNumericCol (t.getCol j) = true) :
    (t.scale m).getCol j = (t.getCol j).map (scaleFn m (t.getCol j)) := by
  rw [Table.scale, getCol_applyCols t _ j hwf hj (by simp),
    getD_range_map _ _ j hj, hnum]
  simp

/-- C3: for every numeric column whose minimum differs from its maximum,
MinMax scaling maps every numeric value of the column into [0, 1] inclusive,
cells holding the minimum to 0 and cells holding the maximum to 1; when the
minimum equals the maximum, every numeric value is mapped to 0. -/
theorem scale_minMax_spec (t : Table) (hwf : t.WF) (j : ℕ)
    (hj : j < t.header.length) (hnum : isNumericCol (t.getCol j) = true)
    (mn mx : ℚ)
    (hmn : listMin? ((t.getCol j).filterMap Val.toNum?) = some mn)
    (hmx : listMax? ((t.getCol j).filterMap Val.toNum?) = some mx) :
    (mn ≠ mx →
      (∀ x : ℚ, Val.num x ∈ (t.scale ScalingMethod.minMax).getCol j →
        0 ≤ x ∧ x ≤ 1) ∧
      (∀ i : ℕ, (t.getCol j).getD i Val.missing = Val.num mn →
        ((t.scale ScalingMethod.minMax).getCol j).getD i Val.missing = Val.num 0) ∧
      (∀ i : ℕ, (t.getCol j).getD i Val.missing = Val.num mx →
        ((t.scale ScalingMethod.minMax).getCol j).getD i Val.missing = Val.num 1)) ∧
    (mn = mx →
      ∀ x : ℚ, Val.num x ∈ (t.scale ScalingMethod.minMax).getCol j → x = 0) := by
  have hcol : (t.scale ScalingMethod.minMax).getCol j
      = (t.getCol j).map (minMaxFn (t.getCol j)) :=
    getCol_scale_numeric ScalingMethod.minMax t hwf j hj hnum
  have hfn : minMaxFn (t.getCol j) = fun v =>
      match v with
      | Val.num x => Val.num ((x - mn) / (if mx = mn then 1 else mx - mn))
      | v' => v' := by
    unfold minMaxFn
    rw [hmn, hmx]
  constructor
  · intro hne
    have hlemm : mn ≤ mx := by
      cases hcase : (t.getCol j).filterMap Val.toNum? with
      | nil => rw [hcase] at hmn; cases hmn
      | cons y ys =>
        have hy : y ∈ (t.getCol j).filterMap Val.toNum? := by rw [hcase]; exact List.mem_cons_self y ys
        exact le_trans (listMin?_le _ mn y hmn hy) (le_listMax? _ mx y hmx hy)
    have hlt : mn < mx := lt_of_le_of_ne hlemm hne
    have hpos : 0 < mx - mn := sub_pos.mpr hlt
    have hd : (if mx = mn then 1 else mx - mn) = mx - mn :=
      if_neg (fun h => hne h.symm)
    refine ⟨?_, ?_, ?_⟩
    · intro x hx
      rw [hcol, hfn] at hx
      obtain ⟨w, hw, hfw⟩ := List.mem_map.mp hx
      cases w with
      | num y =>
        have hxy : x = (y - mn) / (mx - mn) := by
          rw [hd] at hfw
          injection hfw with h
          exact h.symm
        have hyn : y ∈ (t.getCol j).filterMap Val.toNum? :=
          List.mem_filterMap.mpr ⟨Val.num y, hw, rfl⟩
        have hy1 : mn ≤ y := listMin?_le _ mn y hmn hyn
        have hy2 : y ≤ mx := le_listMax? _ mx y hmx hyn
        subst hxy
        constructor
        · exact div_nonneg (sub_nonneg.mpr hy1) (le_of_lt hpos)
        · exact (div_le_one hpos).mpr (sub_le_sub_right hy2 mn)
      | str s => exact Val.noConfusion hfw
      | missing => exact Val.noConfusion hfw
    · intro i hi
      have hilen : i < (t.getCol j).length := by
        by_contra hge
        rw [List.getD_eq_default _ _ (le_of_not_lt hge)] at hi
        exact Val.noConfusion hi
      rw [hcol, hfn, map_getD _ _ i hilen Val.missing Val.missing, hi]
      show Val.num ((mn - mn) / (if mx = mn then 1 else mx - mn)) = Val.num 0
      rw [sub_self, zero_div]
    · intro i hi
      have hilen : i < (t.getCol j).length := by
        by_contra hge
        rw [List.getD_eq_default _ _ (le_of_not_lt hge)] at hi
        exact Val.noConfusion hi
      rw [hcol, hfn, map_getD _ _ i hilen Val.missing Val.missing, hi]
      show Val.num ((mx - mn) / (if mx = mn then 1 else mx - mn)) = Val.num 1
      rw [hd, div_self (ne_of_gt hpos)]
  · intro heq x hx
    rw [hcol, hfn] at hx
    obtain ⟨w, hw, hfw⟩ := List.mem_map.mp hx
    cases w with
    | num y =>
      have hd : (if mx = mn then 1 else mx - mn) = 1 := if_pos heq.symm
      rw [hd] at hfw
      injection hfw with h
      have hyn : y ∈ (t.getCol j).filterMap Val.toNum? :=
        List.mem_filterMap.mpr ⟨Val.num y, hw, rfl⟩
      have hy1 : mn ≤ y := listMin?_le _ mn y hmn hyn
      have hy2 : y ≤ mx := le_listMax? _ mx y hmx hyn
      have hym : y = mn := le_antisymm (heq ▸ hy2) hy1
      rw [← h, hym]
      simp
    | str s => exact Val.noConfusion hfw
    | missing => exact Val.noConfusion hfw

/-- Closed instance of C3: the column [0, 2] scales to bounds 0 and 1, and
the constant column [5, 5] scales to all zeros. -/
theorem scale_minMax_spec_witness :
    ((∀ x : ℚ, Val.num x ∈ (scaleSample.scale ScalingMethod.minMax).getCol 0 →
        0 ≤ x ∧ x ≤ 1) ∧
      (∀ i : ℕ, (scaleSample.getCol 0).getD i Val.missing = Val.num 0 →
        ((scaleSample.scale ScalingMethod.minMax).getCol 0).getD i Val.missing
          = Val.num 0) ∧
      (∀ i : ℕ, (scaleSample.getCol 0).getD i Val.missing = Val.num 2 →
        ((scaleSample.scale ScalingMethod.minMax).getCol 0).getD i Val.missing
          = Val.num 1)) ∧
    (∀ x : ℚ, Val.num x ∈ (constSample.scale ScalingMethod.minMax).getCol 0 →
      x = 0) :=
  ⟨(scale_minMax_spec scaleSample (by decide) 0 (by decide) (by decide) 0 2
      (by decide) (by decide)).1 (by norm_num),
   (scale_minMax_spec constSample (by decide) 0 (by decide) (by decide) 5 5
      (by decide) (by decide)).2 rfl⟩

/-- C1 (amended): outlier detection does not mutate its input and returns a
same-shape masked table — the header and the row count are preserved, every
row stays in its original position, and cell (i, j) of the result holds the
original value exactly when column j is numeric and that value lies strictly
outside the fence [Q1 - 1.5·IQR, Q3 + 1.5·IQR] of column j, and is missing
otherwise. -/
theorem detectOutliers_spec (t : Table) (hwf : t.WF) :
    (t.detectOutliers).header = t.header ∧
    (t.detectOutliers).rows.length = t.rows.length ∧
    ∀ j, j < t.header.length →
      (t.detectOutliers).getCol j =
        (t.getCol j).map (fun v =>
          if isNumericCol (t.getCol j) && outsideFence (t.getCol j) v then v
          else Val.missing) := by
  refine ⟨rfl, by simp [Table.detectOutliers, Table.applyCols], ?_⟩
  intro j hj
  rw [Table.detectOutliers, getCol_applyCols t _ j hwf hj (by simp),
    getD_range_map _ _ j hj]
  apply List.map_congr_left
  intro v hv
  cases hnum : isNumericCol (t.getCol j) with
  | true =>
    show outlierFn (t.getCol j) v = _
    rw [outlierFn, Bool.true_and]
  | false =>
    show Val.missing = _
    rw [Bool.false_and]
    rfl

/-- Closed instance of the amended C1, on the spec §8 scenario
{a:[1,2,3,4,100]}: the value 100 (outside the fence [-1, 7]) survives in row
position 4 and every other cell of the mask is missing. -/
theorem detectOutliers_spec_witness :
    outlierSample.WF ∧
    ((outlierSample.detectOutliers).header = outlierSample.header ∧
     (outlierSample.detectOutliers).rows.length = outlierSample.rows.length ∧
     ∀ j, j < outlierSample.header.length →
       (outlierSample.detectOutliers).getCol j =
         (outlierSample.getCol j).map (fun v =>
           if isNumericCol (outlierSample.getCol j) &&
               outsideFence (outlierSample.getCol j) v then v
           else Val.missing)) :=
  ⟨by decide, detectOutliers_spec outlierSample (by decide)⟩

/-- Counterexample to C1 as stated: on the table {a:[1,2,3,4,100]} the code
returns the full-shape masked table with 5 rows (four of them entirely
missing), not the 1-row sub-table of flagged rows that the claim describes. -/
theorem detectOutliers_not_claimed_subtable :
    outlierSample.detectOutliers
      = ⟨["a"], [[Val.missing], [Val.missing], [Val.missing], [Val.missing],
          [Val.num 100]]⟩ ∧
    outliersAsClaimed outlierSample = ⟨["a"], [[Val.num 100]]⟩ ∧
    outlierSample.detectOutliers ≠ outliersAsClaimed outlierSample ∧
    (outlierSample.detectOutliers).rows.length = 5 ∧
    (outliersAsClaimed outlierSample).rows.length = 1 := by
  have hq1 : quantileQ [1, 2, 3, 4, 100] (1 / 4) = 2 := by
    norm_num [quantileQ, sortQ, insertSorted, show Int.toNat 1 = 1 from rfl]
  have hq3 : quantileQ [1, 2, 3, 4, 100] (3 / 4) = 4 := by
    norm_num [quantileQ, sortQ, insertSorted, show Int.toNat 3 = 3 from rfl]
  have hnums : List.filterMap Val.toNum?
      [Val.num 1, Val.num 2, Val.num 3, Val.num 4, Val.num 100]
      = [1, 2, 3, 4, 100] := by decide
  have hA : outlierSample.detectOutliers
      = ⟨["a"], [[Val.missing], [Val.missing], [Val.missing], [Val.missing],
          [Val.num 100]]⟩ := by
    norm_num [Table.detectOutliers, Table.applyCols, Table.getCol, outlierSample,
      show List.range 1 = [0] from rfl, applyRow, outlierFn, outsideFence,
      isNumericCol, Val.isStr, hnums, hq1, hq3]
  have hB : outliersAsClaimed outlierSample = ⟨["a"], [[Val.num 100]]⟩ := by
    norm_num [outliersAsClaimed, Table.getCol, outlierSample,
      show List.range 1 = [0] from rfl, outsideFence, isNumericCol, Val.isStr,
      hnums, hq1, hq3]
    exact Or.inl (by decide)
  refine ⟨hA, hB, ?_, ?_, ?_⟩
  · rw [hA, hB]
    intro hcontra
    injection hcontra with h1 h2
    exact List.noConfusion (List.cons.inj h2).2
  · rw [hA]
    rfl
  · rw [hB]
    rfl

theorem headerUnion_self (hdr : List String) : headerUnion hdr hdr = hdr := by
  rw [headerUnion]
  have h : hdr.filter (fun c => !(hdr.contains c)) = [] := by
    rw [List.filter_eq_nil_iff]
    intro c hc
    have : hdr.contains c = true := List.elem_iff.mpr hc
    simp [this]
    exact hc
  rw [h, List.append_nil]

theorem reindexRow_self (hdr : List String) (r : List Val) (hnd : hdr.Nodup)
    (hlen : r.length = hdr.length) : reindexRow hdr r hdr = r := by
  apply List.ext_getElem
  · simp [reindexRow, hlen]
  · intro i hi hir
    simp only [reindexRow] at hi ⊢
    rw [List.getElem_map]
    show r.getD (hdr.indexOf hdr[i]) Val.missing = r[i]
    rw [List.indexOf_getElem hnd i (by simpa using hi)]
    rw [List.getD_eq_getElem?_getD, List.getElem?_eq_getElem hir]
    rfl

theorem concatTables_same_header (hdr : List String) (hnd : hdr.Nodup)
    (t1 t2 : Table) (h1 : t1.header = hdr) (h2 : t2.header = hdr)
    (w1 : t1.WF) (w2 : t2.WF) :
    concatTables t1 t2 = ⟨hdr, t1.rows ++ t2.rows⟩ := by
  simp only [concatTables, h1, h2, headerUnion_self]
  congr 1
  have e1 : t1.rows.map (fun r => reindexRow hdr r hdr) = t1.rows.map id := by
    apply List.map_congr_left
    intro r hr
    exact reindexRow_self hdr r hnd ((w1 r hr).trans (by rw [h1]))
  have e2 : t2.rows.map (fun r => reindexRow hdr r hdr) = t2.rows.map id := by
    apply List.map_congr_left
    intro r hr
    exact reindexRow_self hdr r hnd ((w2 r hr).trans (by rw [h2]))
  rw [e1, e2, List.map_id, List.map_id]

theorem mergeTables_foldl_same_schema (hdr : List String) (hnd : hdr.Nodup)
    (hne : hdr ≠ []) (ts : List Table)
    (hall : ∀ u ∈ ts, u.header = hdr ∧ u.WF) (acc : Table)
    (hacch : acc.header = hdr) (haccw : acc.WF) :
    ts.foldl (fun a df => if a.isEmptyTable then df else concatTables a df) acc
      = ⟨hdr, acc.rows ++ (ts.map Table.rows).flatten⟩ := by
  induction ts generalizing acc with
  | nil =>
    obtain ⟨hd, r⟩ := acc
    simp only at hacch
    subst hacch
    simp
  | cons u us ih =>
    have hu := hall u (List.mem_cons_self u us)
    have hus : ∀ w ∈ us, w.header = hdr ∧ w.WF :=
      fun w hw => hall w (List.mem_cons_of_mem u hw)
    rw [List.foldl_cons]
    by_cases hacc : acc.isEmptyTable = true
    · rw [if_pos hacc]
      have hrows : acc.rows = [] := by
        rw [Table.isEmptyTable, Bool.or_eq_true] at hacc
        rcases hacc with h | h
        · exact List.isEmpty_iff.mp h
        · exact absurd (hacch ▸ List.isEmpty_iff.mp h) hne
      rw [ih hus u hu.1 hu.2, hrows]
      simp
    · rw [if_neg hacc,
        concatTables_same_header hdr hnd acc u hacch hu.1 haccw hu.2]
      have hw : (Table.mk hdr (acc.rows ++ u.rows)).WF := by
        intro r hr
        rcases List.mem_append.mp hr with h | h
        · exact (haccw r h).trans (by rw [hacch])
        · exact (hu.2 r h).trans (by rw [hu.1])
      rw [ih hus (Table.mk hdr (acc.rows ++ u.rows)) rfl hw]
      simp

/-- C7: merging a non-empty list of ingested tables of one common (duplicate
free, non-empty) schema yields the row concatenation in upload order, with
the row order — and every cell, hence no new missing values — preserved
within each table. -/
theorem mergeTables_spec (hdr : List String) (hnd : hdr.Nodup) (hne : hdr ≠ [])
    (ts : List Table) (hts : ts ≠ [])
    (hall : ∀ u ∈ ts, u.header = hdr ∧ u.WF) :
    mergeTables ts = ⟨hdr, (ts.map Table.rows).flatten⟩ := by
  cases ts with
  | nil => exact absurd rfl hts
  | cons u us =>
    have hu := hall u (List.mem_cons_self u us)
    have hus : ∀ w ∈ us, w.header = hdr ∧ w.WF :=
      fun w hw => hall w (List.mem_cons_of_mem u hw)
    rw [mergeTables, List.foldl_cons]
    have hstart : (Table.mk ([] : List String) ([] : List (List Val))).isEmptyTable
        = true := rfl
    rw [if_pos hstart]
    rw [mergeTables_foldl_same_schema hdr hnd hne us hus u hu.1 hu.2]
    simp

/-- Closed instance of C7, the spec §8 scenario: two 3-row tables with the
identical schema ["a", "b"] merge to file1's rows followed by file2's rows —
6 rows, all cells carried over unchanged. -/
theorem mergeTables_spec_witness :
    mergeTables [mergeSample1, mergeSample2]
      = ⟨["a", "b"], ([mergeSample1, mergeSample2].map Table.rows).flatten⟩ ∧
    (mergeTables [mergeSample1, mergeSample2]).rows
      = mergeSample1.rows ++ mergeSample2.rows ∧
    (mergeTables [mergeSample1, mergeSample2]).rows.length = 6 :=
  have h := mergeTables_spec ["a", "b"] (by decide) (by decide)
    [mergeSample1, mergeSample2] (by decide) (by decide)
  ⟨h, by rw [h]; rfl, by rw [h]; rfl⟩
